import Mathlib

/-!
Verification of the bounded key-value cache (storage engine, eviction
policies, HTTP server layer, client library) against its specification.

The storage engine (`Cache`), its eviction-policy interface, and the two
concrete policies are embedded shallowly: keys are `String`s, values are
byte sequences (`List Char`), sizes are `Nat`.  The implementation file of
the storage engine is not part of the sources, so `Cache` is modelled from
the specification text; the LRU policy, the HTTP server wrapper and the
client library are translated from their sources
(`lru_evictor.cc`, `cache_server.cc`, `cache_client.cc`).
-/

namespace CacheSpec


/-- Keys are byte strings drawn from the protocol charset. -/
abbrev Key := String

/-! ### Association-list helpers

`std::unordered_map` keyed by `String` is modelled as an association list
with pairwise-distinct keys (the distinctness is proved as an invariant of
every reachable state, never assumed of raw lists). -/

/-- Keys of an association list. -/
def akeys {α : Type} (l : List (Key × α)) : List Key :=
  l.map (·.1)

/-- Lookup of the first binding of a key (`unordered_map::find`). -/
def alookup {α : Type} : List (Key × α) → Key → Option α
  | [], _ => none
  | (k', v) :: rest, k => if k' = k then some v else alookup rest k

/-- Remove the first binding of a key (`unordered_map::erase(key)`). -/
def aerase {α : Type} : List (Key × α) → Key → List (Key × α)
  | [], _ => []
  | (k', v) :: rest, k => if k' = k then rest else (k', v) :: aerase rest k

/-- Replace the binding of a key, or append a fresh binding
(`unordered_map::operator[] =`). -/
def ainsert {α : Type} : List (Key × α) → Key → α → List (Key × α)
  | [], k, v => [(k, v)]
  | (k', v') :: rest, k, v =>
    if k' = k then (k, v) :: rest else (k', v') :: ainsert rest k v

/-! ### Eviction-policy interface

`evictor.hh` is not among the sources; the capability set `{touch_key,
evict}` is taken from the spec and from the two concrete policy headers.
A policy is a pair of pure transition functions over a policy-state type
`E`; `evict` returns the sacrificed key together with the next state, with
the empty string `""` as the no-keys sentinel (as in `lru_evictor.cc`). -/

structure Evictor (E : Type) where
  touch_key : E → Key → E
  evict : E → Key × E

/-- One stored entry: the value's bytes and its charged size.
Per the spec, `size` is the byte length of `value` only. -/
structure Entry where
  data : List Char
  size : Nat
deriving DecidableEq, Repr

/-- Modelled from the spec: the `Cache` storage engine of `cache.hh` /
`cache_lib.cc`, whose implementation file is missing from the sources.
`maxmem` is the fixed capacity, `entries` the key-to-entry map, `used` the
running byte counter, `policy` the optional evictor and `estate` its
state. -/
structure Cache (E : Type) where
  maxmem : Nat
  entries : List (Key × Entry)
  used : Nat
  policy : Option (Evictor E)
  estate : E

/-- A fresh cache with the given capacity and optional policy. -/
def Cache.mk0 {E : Type} (maxmem : Nat) (policy : Option (Evictor E))
    (e0 : E) : Cache E :=
  ⟨maxmem, [], 0, policy, e0⟩

/-- Notify the policy (if any) that a key was accessed. -/
def Cache.touchPolicy {E : Type} (c : Cache E) (k : Key) : Cache E :=
  match c.policy with
  | none => c
  | some ev => { c with estate := ev.touch_key c.estate k }

/-- Remove the entry for a key, if present, decrementing `used` by its
size; no-op otherwise. -/
def Cache.removeKey {E : Type} (c : Cache E) (k : Key) : Cache E :=
  match alookup c.entries k with
  | none => c
  | some e => { c with entries := aerase c.entries k, used := c.used - e.size }

/-- Modelled from the spec: the eviction loop of `Cache::set` — repeatedly
call `evict()` and remove the returned key from the map until either
enough free space exists or the evictor reports empty (sentinel `""`).
The loop is written with explicit fuel; `entries.length + 1` steps suffice
for any policy that returns currently-present keys and signals emptiness
once drained. -/
def Cache.evictLoop {E : Type} (ev : Evictor E) (size : Nat) :
    Nat → Cache E → Cache E
  | 0, c => c
  | Nat.succ fuel, c =>
    if c.used + size ≤ c.maxmem then c
    else
      match ev.evict c.estate with
      | (k, e') =>
        if k = "" then { c with estate := e' }
        else Cache.evictLoop ev size fuel
          (Cache.removeKey { c with estate := e' } k)

/-- Append a fresh entry and charge its size. -/
def Cache.insertNew {E : Type} (c : Cache E) (k : Key) (data : List Char)
    (size : Nat) : Cache E :=
  { c with entries := c.entries ++ [(k, ⟨data, size⟩)], used := c.used + size }

/-- Modelled from the spec: `Cache::set(key, val, size)`.  An existing
entry for `key` is first removed (its size subtracted from `used`).  If
the value then fits, it is inserted and the policy touched.  Otherwise,
with no evictor the call is a silent no-op that leaves the store
unchanged; with an evictor the eviction loop runs, and the value is
inserted only if it now fits (evictions performed by a failed attempt
persist). -/
def Cache.set {E : Type} (c : Cache E) (k : Key) (data : List Char)
    (size : Nat) : Cache E :=
  let c₁ := c.removeKey k
  if c₁.used + size ≤ c₁.maxmem then
    (c₁.insertNew k data size).touchPolicy k
  else
    match c₁.policy with
    | none => c
    | some ev =>
      let c₂ := Cache.evictLoop ev size (c₁.entries.length + 1) c₁
      if c₂.used + size ≤ c₂.maxmem then
        (c₂.insertNew k data size).touchPolicy k
      else c₂

/-- Modelled from the spec: `Cache::get(key, val_size)` — on a hit the
policy is touched and the value bytes and size are produced; on a miss
nothing changes and `none` (the null pointer) is returned. -/
def Cache.get {E : Type} (c : Cache E) (k : Key) :
    Option (List Char × Nat) × Cache E :=
  match alookup c.entries k with
  | some e => (some (e.data, e.size), c.touchPolicy k)
  | none => (none, c)

/-- Modelled from the spec: `Cache::del(key)` — removes the entry if
present, decrements `used` by its size, reports whether a removal
occurred.  The `Evictor` interface exposes no untracking operation, so the
policy state is untouched. -/
def Cache.del {E : Type} (c : Cache E) (k : Key) : Bool × Cache E :=
  match alookup c.entries k with
  | some e =>
    (true, { c with entries := aerase c.entries k, used := c.used - e.size })
  | none => (false, c)

/-- Modelled from the spec: `Cache::reset()` — clears all entries and sets
`used` to 0 without changing capacity or policy.  (The spec would also
have the evictor's tracking cleared, but the `Evictor` capability set
offers no such operation; no claim depends on it.) -/
def Cache.reset {E : Type} (c : Cache E) : Cache E :=
  { c with entries := [], used := 0 }

/-- `Cache::space_used()`. -/
def Cache.space_used {E : Type} (c : Cache E) : Nat :=
  c.used

/-- Total charged size of the stored entries. -/
def sizeSum (l : List (Key × Entry)) : Nat :=
  (l.map (·.2.size)).sum

/-- The C1 invariant: the map's keys are pairwise distinct, `used` equals
the total size of the stored entries, and `used` never exceeds the
capacity. -/
def CacheInv {E : Type} (c : Cache E) : Prop :=
  (akeys c.entries).Nodup ∧ c.used = sizeSum c.entries ∧ c.used ≤ c.maxmem

instance decidableCacheInv {E : Type} (c : Cache E) :
    Decidable (CacheInv c) := by
  unfold CacheInv
  infer_instance

/-! ### Operation sequences on the store -/

/-- One completed store operation, as in the claimed invariant. -/
inductive CacheOp where
  | setOp (k : Key) (data : List Char) (size : Nat)
  | getOp (k : Key)
  | delOp (k : Key)
  | resetOp
deriving Repr

/-- Apply one operation (discarding any returned value). -/
def Cache.applyOp {E : Type} (c : Cache E) : CacheOp → Cache E
  | .setOp k d s => c.set k d s
  | .getOp k => (c.get k).2
  | .delOp k => (c.del k).2
  | .resetOp => c.reset

/-- Run a sequence of operations left to right. -/
def Cache.execOps {E : Type} (c : Cache E) (ops : List CacheOp) : Cache E :=
  ops.foldl Cache.applyOp c

/-! ### FIFO eviction policy -/

/-- Modelled from the spec: `FifoEvictor` — `fifo_evictor.cc` is missing
from the sources; the header declares an ordered `queue` (`std::list`)
and a tracked-key set `keys` (`std::unordered_set`).  Per the spec,
`touch_key` is a no-op on an already-tracked key and otherwise appends to
the back; `evict` pops the front, with `""` as the empty sentinel, and
untracks the popped key. -/
structure FifoEvictor where
  queue : List Key
  keys : List Key
deriving DecidableEq, Repr

def FifoEvictor.empty : FifoEvictor :=
  ⟨[], []⟩

def FifoEvictor.touch_key (s : FifoEvictor) (k : Key) : FifoEvictor :=
  if k ∈ s.keys then s else ⟨s.queue ++ [k], k :: s.keys⟩

def FifoEvictor.evict (s : FifoEvictor) : Key × FifoEvictor :=
  match s.queue with
  | [] => ("", s)
  | k :: rest => (k, ⟨rest, s.keys.erase k⟩)

/-- The FIFO policy packaged behind the `Evictor` capability set. -/
def fifoPolicy : Evictor FifoEvictor :=
  ⟨FifoEvictor.touch_key, FifoEvictor.evict⟩

/-! ### LRU eviction policy (translated from `lru_evictor.cc`)

`std::list<key_type> queue` is modelled as a list of (node id, key) pairs:
the `Nat` id stands for the identity of a list node, so that
`std::unordered_map<key_type, list::iterator> map` can be modelled as an
association from key to node id.  Fresh ids come from a counter. -/

structure LruEvictor where
  queue : List (Nat × Key)
  map : List (Key × Nat)
  nextId : Nat
deriving DecidableEq, Repr

def LruEvictor.empty : LruEvictor :=
  ⟨[], [], 0⟩

/-- `std::list::erase(it)`: remove the node a valid iterator points to. -/
def eraseNode : List (Nat × Key) → Nat → List (Nat × Key)
  | [], _ => []
  | n :: rest, i => if n.1 = i then rest else n :: eraseNode rest i

/-- `LruEvictor::touch_key`: if the key is indexed, erase its current
queue node; then append the key at the most-recently-used end and index
the new node. -/
def LruEvictor.touch_key (s : LruEvictor) (k : Key) : LruEvictor :=
  { queue :=
      (match alookup s.map k with
        | some i => eraseNode s.queue i
        | none => s.queue) ++ [(s.nextId, k)],
    map := ainsert s.map k s.nextId,
    nextId := s.nextId + 1 }

/-- `LruEvictor::evict`: pop the least-recently-used end (the front),
unindex the popped key; `""` when empty. -/
def LruEvictor.evict (s : LruEvictor) : Key × LruEvictor :=
  match s.queue with
  | [] => ("", s)
  | (_, k) :: rest => (k, ⟨rest, aerase s.map k, s.nextId⟩)

/-- The LRU policy packaged behind the `Evictor` capability set. -/
def lruPolicy : Evictor LruEvictor :=
  ⟨LruEvictor.touch_key, LruEvictor.evict⟩

/-- Keys of the queue nodes, in queue order (LRU end first). -/
def qkeys (q : List (Nat × Key)) : List Key :=
  q.map (·.2)

/-- Node ids of the queue. -/
def qids (q : List (Nat × Key)) : List Nat :=
  q.map (·.1)

/-- Claim C10's invariant: each key occurs at most once in the queue, node
ids are distinct and below the id counter, index keys are distinct, and
the index and the queue list exactly the same (key, node) associations. -/
def LruInv (s : LruEvictor) : Prop :=
  (qkeys s.queue).Nodup ∧
  (qids s.queue).Nodup ∧
  (akeys s.map).Nodup ∧
  (∀ p ∈ s.map, (p.2, p.1) ∈ s.queue) ∧
  (∀ n ∈ s.queue, (n.2, n.1) ∈ s.map) ∧
  (∀ n ∈ s.queue, n.1 < s.nextId)

instance decidableLruInv (s : LruEvictor) : Decidable (LruInv s) := by
  unfold LruInv
  infer_instance

/-- One call on an `LruEvictor`. -/
inductive LruOp where
  | touchOp (k : Key)
  | evictOp
deriving Repr

def LruEvictor.applyOp (s : LruEvictor) : LruOp → LruEvictor
  | .touchOp k => s.touch_key k
  | .evictOp => (s.evict).2

def LruEvictor.execOps (s : LruEvictor) (ops : List LruOp) : LruEvictor :=
  ops.foldl LruEvictor.applyOp s

/-- Run `count` successive `evict()` calls, collecting the returned keys. -/
def LruEvictor.drain (s : LruEvictor) : Nat → List Key
  | 0 => []
  | Nat.succ n =>
    match s.evict with
    | (k, s') => k :: s'.drain n

/-- Touch a sequence of keys left to right. -/
def touchAll {E : Type} (ev : Evictor E) (e : E) (ks : List Key) : E :=
  ks.foldl ev.touch_key e

/-- The six test keys, in the order the claim touches them. -/
def claimKeys : List Key :=
  ["foo", "bar", "baz", "quux", "quuz", "xyzzy"]

/-- Run `count` successive `evict()` calls, collecting the returned keys. -/
def FifoEvictor.drain (s : FifoEvictor) : Nat → List Key
  | 0 => []
  | Nat.succ n =>
    match s.evict with
    | (k, s') => k :: s'.drain n

/-! ### HTTP server layer (translated from `cache_server.cc`) -/

/-- The NUL terminator byte the server stores with each value. -/
def nulChar : Char := Char.ofNat 0

/-- `SharedCache::set`: `cache->set(key, val.c_str(), val.size() + 1)` —
the stored byte block is the value's characters plus the NUL terminator,
and the charged size is `val.size() + 1`. -/
def SharedCache.set {E : Type} (c : Cache E) (key val : String) : Cache E :=
  Cache.set c key (val.data ++ [nulChar]) (val.length + 1)

/-- `SharedCache::get`: copies the returned value into a string of
`size - 1` characters (dropping the terminator); `""` if not found. -/
def SharedCache.get {E : Type} (c : Cache E) (key : String) :
    String × Cache E :=
  match Cache.get c key with
  | (some (data, size), c') => (⟨data.take (size - 1)⟩, c')
  | (none, c') => ("", c')

/-- `SharedCache::del`. -/
def SharedCache.del {E : Type} (c : Cache E) (key : String) :
    Bool × Cache E :=
  Cache.del c key

/-- `SharedCache::space_used`. -/
def SharedCache.space_used {E : Type} (c : Cache E) : Nat :=
  Cache.space_used c

/-- `SharedCache::reset`. -/
def SharedCache.reset {E : Type} (c : Cache E) : Cache E :=
  Cache.reset c

/-- The character class `[A-Za-z0-9._-]` of `KEY_RE` / `KEY_VALUE_RE`. -/
def allowedChar (c : Char) : Bool :=
  (decide ('A' ≤ c) && decide (c ≤ 'Z')) ||
  (decide ('a' ≤ c) && decide (c ≤ 'z')) ||
  (decide ('0' ≤ c) && decide (c ≤ '9')) ||
  c == '.' || c == '_' || c == '-'

/-- `Connection::extract_key`: full match of the target against
`/([A-Za-z0-9._-]+)`. -/
def extract_key (target : String) : Option String :=
  match target.data with
  | '/' :: rest =>
    if rest ≠ [] ∧ rest.all allowedChar = true then some ⟨rest⟩ else none
  | _ => none

/-- `Connection::extract_key_value`: full match of the target against
`/([A-Za-z0-9._-]+)/([A-Za-z0-9._-]+)`. -/
def extract_key_value (target : String) : Option (String × String) :=
  match target.data with
  | '/' :: rest =>
    match rest.dropWhile (fun c => c != '/') with
    | '/' :: valPart =>
      if rest.takeWhile (fun c => c != '/') ≠ [] ∧ valPart ≠ [] ∧
          (rest.takeWhile (fun c => c != '/')).all allowedChar = true ∧
          valPart.all allowedChar = true then
        some (⟨rest.takeWhile (fun c => c != '/')⟩, ⟨valPart⟩)
      else none
    | _ => none
  | _ => none

/-- The request methods `Connection::handle_request` switches on;
`other` stands for every verb outside the five handled cases. -/
inductive Method where
  | get
  | put
  | del
  | head
  | post
  | other
deriving DecidableEq, Repr

/-- The observable pieces of an HTTP response: status code, body, and the
`Space-Used` header when set. -/
structure Response where
  status : Nat
  body : String
  spaceUsed : Option Nat
deriving DecidableEq, Repr

/-- The JSON body of a successful GET:
`\x7b"key":"<key>","value":"<value>"\x7d`. -/
def jsonBody (key value : String) : String :=
  "\x7b\"key\":\"" ++ key ++ "\",\"value\":\"" ++ value ++ "\"\x7d"

/-- `Connection::handle_request` and the per-method handlers: dispatch on
the method, parse the target, call the shared cache, and produce the
response (dropping transport-only aspects such as keep-alive). -/
def handle_request {E : Type} (m : Method) (target : String) (c : Cache E) :
    Response × Cache E :=
  match m with
  | .get =>
    match extract_key target with
    | none => (⟨400, "", none⟩, c)
    | some key =>
      match SharedCache.get c key with
      | (value, c') =>
        if value ≠ "" then (⟨200, jsonBody key value, none⟩, c')
        else (⟨404, "", none⟩, c')
  | .put =>
    match extract_key_value target with
    | none => (⟨400, "", none⟩, c)
    | some kv => (⟨200, "", none⟩, SharedCache.set c kv.1 kv.2)
  | .del =>
    match extract_key target with
    | none => (⟨400, "", none⟩, c)
    | some key =>
      match SharedCache.del c key with
      | (true, c') => (⟨200, "", none⟩, c')
      | (false, c') => (⟨404, "", none⟩, c')
  | .head => (⟨200, "", some (SharedCache.space_used c)⟩, c)
  | .post =>
    if target = "/reset" then (⟨200, "", none⟩, SharedCache.reset c)
    else (⟨404, "", none⟩, c)
  | .other => (⟨400, "", none⟩, c)

/-- The store state after `set`'s eviction loop: the old binding for the
key removed, then the loop run with its standard fuel. -/
def Cache.afterEvict {E : Type} (c : Cache E) (ev : Evictor E) (k : Key)
    (size : Nat) : Cache E :=
  Cache.evictLoop ev size ((c.removeKey k).entries.length + 1)
    (c.removeKey k)

/-- A capacity-5 FIFO-evictor store holding one 3-byte entry under `a`. -/
def c4ex : Cache FifoEvictor :=
  (Cache.mk0 5 (some fifoPolicy) FifoEvictor.empty).set "a"
    ['x', 'y', 'z'] 3

/-- A capacity-5 FIFO-evictor store holding one 3-byte entry, used to
exercise the eviction path of `set`. -/
def c3ex : Cache FifoEvictor :=
  (Cache.mk0 5 (some fifoPolicy) FifoEvictor.empty).set "a"
    ['x', 'y', 'z'] 3

/-! ### Client library (translated from `cache_client.cc`) -/

/-- `Cache::Impl` of the client library: `last_value` is the single
per-connection buffer that the pointer returned by `get` points into
("must be copied by the caller before `get()` is called again"). -/
structure ClientImpl where
  last_value : String
deriving DecidableEq, Repr

/-- `Cache::Impl::get`, with the HTTP round-trip to the server collapsed
(for targets in the allowed charset the wire format carries key and value
verbatim, so the GET simply consults the shared cache): on a hit the
parsed value is written into `last_value` and the function returns
`val_size = value.size() + 1` along with the pointer into that buffer,
modelled by the new `ClientImpl`; on a miss the null pointer (`none`) is
returned and the buffer is untouched. -/
def clientGet {E : Type} (impl : ClientImpl) (srv : Cache E)
    (k : String) : Option Nat × ClientImpl × Cache E :=
  match SharedCache.get srv k with
  | (value, srv') =>
    if value ≠ "" then (some (value.length + 1), ⟨value⟩, srv')
    else (none, impl, srv')

/-- Dereference the pointer `Cache::Impl::get` returned: it reads
whatever the shared buffer `last_value` holds at that moment. -/
def derefPtr (impl : ClientImpl) : String :=
  impl.last_value

/-- A capacity-100 server cache holding `foo ↦ up` and `bar ↦ down`. -/
def c8srv : Cache Unit :=
  SharedCache.set
    (SharedCache.set (Cache.mk0 100 none ()) "foo" "up") "bar" "down"

@[simp]
theorem akeys_nil {α : Type} : akeys ([] : List (Key × α)) = [] := rfl

@[simp]
theorem akeys_cons {α : Type} (k : Key) (v : α) (l : List (Key × α)) :
    akeys ((k, v) :: l) = k :: akeys l := rfl

@[simp]
theorem akeys_append {α : Type} (l₁ l₂ : List (Key × α)) :
    akeys (l₁ ++ l₂) = akeys l₁ ++ akeys l₂ := by
  simp [akeys]

theorem mem_akeys {α : Type} {l : List (Key × α)} {k : Key} :
    k ∈ akeys l ↔ ∃ v, (k, v) ∈ l := by
  constructor
  · intro h
    rcases List.mem_map.mp h with ⟨⟨a, b⟩, hm, he⟩
    exact ⟨b, by simpa [← he] using hm⟩
  · rintro ⟨v, hm⟩
    exact List.mem_map_of_mem (·.1) hm

theorem mem_akeys_of_mem {α : Type} {l : List (Key × α)} {k : Key} {v : α}
    (h : (k, v) ∈ l) : k ∈ akeys l :=
  mem_akeys.mpr ⟨v, h⟩

theorem alookup_eq_none {α : Type} (l : List (Key × α)) (k : Key) :
    alookup l k = none ↔ k ∉ akeys l := by
  induction l with
  | nil => simp [alookup]
  | cons p rest ih =>
    obtain ⟨k', v⟩ := p
    by_cases h : k' = k
    · subst h
      simp [alookup]
    · simp [alookup, h, ih, Ne.symm h]

theorem mem_of_alookup_eq_some {α : Type} {l : List (Key × α)} {k : Key}
    {v : α} (h : alookup l k = some v) : (k, v) ∈ l := by
  induction l with
  | nil => simp [alookup] at h
  | cons p rest ih =>
    obtain ⟨k', v'⟩ := p
    by_cases hk : k' = k
    · subst hk
      simp [alookup] at h
      simp [h]
    · simp [alookup, hk] at h
      exact List.mem_cons_of_mem _ (ih h)

theorem mem_akeys_of_alookup_eq_some {α : Type} {l : List (Key × α)}
    {k : Key} {v : α} (h : alookup l k = some v) : k ∈ akeys l :=
  mem_akeys_of_mem (mem_of_alookup_eq_some h)

theorem alookup_eq_some_of_mem {α : Type} {l : List (Key × α)} {k : Key}
    {v : α} (hnd : (akeys l).Nodup) (hm : (k, v) ∈ l) :
    alookup l k = some v := by
  induction l with
  | nil => simp at hm
  | cons p rest ih =>
    obtain ⟨k', v'⟩ := p
    rw [akeys_cons, List.nodup_cons] at hnd
    rcases List.mem_cons.mp hm with h | h
    · rw [← h]
      simp [alookup]
    · have hk : k' ≠ k := by
        intro he
        apply hnd.1
        rw [he]
        exact mem_akeys_of_mem h
      simp [alookup, hk]
      exact ih hnd.2 h

theorem akeys_aerase {α : Type} {l : List (Key × α)} (k : Key)
    (hnd : (akeys l).Nodup) : akeys (aerase l k) = (akeys l).erase k := by
  induction l with
  | nil => simp [aerase]
  | cons p rest ih =>
    obtain ⟨k', v⟩ := p
    rw [akeys_cons, List.nodup_cons] at hnd
    by_cases h : k' = k
    · subst h
      simp [aerase, List.erase_cons_head]
    · rw [show aerase ((k', v) :: rest) k = (k', v) :: aerase rest k by
        simp [aerase, h]]
      rw [akeys_cons, akeys_cons, List.erase_cons_tail (by simpa using h),
        ih hnd.2]

theorem mem_aerase {α : Type} {l : List (Key × α)} {k : Key}
    (hnd : (akeys l).Nodup) (p : Key × α) :
    p ∈ aerase l k ↔ p ∈ l ∧ p.1 ≠ k := by
  induction l with
  | nil => simp [aerase]
  | cons q rest ih =>
    obtain ⟨k', v⟩ := q
    rw [akeys_cons, List.nodup_cons] at hnd
    by_cases h : k' = k
    · subst h
      simp only [aerase, if_pos rfl]
      constructor
      · intro hp
        refine ⟨List.mem_cons_of_mem _ hp, ?_⟩
        intro he
        apply hnd.1
        rw [← he]
        exact mem_akeys_of_mem ((Prod.mk.eta (p := p)) ▸ hp)
      · rintro ⟨hp, hne⟩
        rcases List.mem_cons.mp hp with hp | hp
        · exact absurd (congrArg Prod.fst hp) (by simpa using hne)
        · exact hp
    · rw [show aerase ((k', v) :: rest) k = (k', v) :: aerase rest k by
        simp [aerase, h]]
      rw [List.mem_cons, List.mem_cons, ih hnd.2]
      constructor
      · rintro (hp | ⟨hp, hne⟩)
        · subst hp
          exact ⟨Or.inl rfl, by simpa using h⟩
        · exact ⟨Or.inr hp, hne⟩
      · rintro ⟨hp | hp, hne⟩
        · exact Or.inl hp
        · exact Or.inr ⟨hp, hne⟩

theorem akeys_aerase_sublist {α : Type} (l : List (Key × α)) (k : Key) :
    List.Sublist (akeys (aerase l k)) (akeys l) := by
  induction l with
  | nil => simp [aerase]
  | cons p rest ih =>
    obtain ⟨k', v⟩ := p
    by_cases h : k' = k
    · rw [show aerase ((k', v) :: rest) k = rest by simp [aerase, h]]
      rw [akeys_cons]
      exact List.sublist_cons_self _ _
    · rw [show aerase ((k', v) :: rest) k = (k', v) :: aerase rest k by
        simp [aerase, h]]
      rw [akeys_cons, akeys_cons]
      exact List.Sublist.cons₂ _ ih

theorem nodup_akeys_aerase {α : Type} {l : List (Key × α)} (k : Key)
    (hnd : (akeys l).Nodup) : (akeys (aerase l k)).Nodup :=
  (akeys_aerase_sublist l k).nodup hnd

theorem not_mem_akeys_aerase_self {α : Type} {l : List (Key × α)} {k : Key}
    (hnd : (akeys l).Nodup) : k ∉ akeys (aerase l k) := by
  rw [akeys_aerase k hnd]
  exact hnd.not_mem_erase

theorem akeys_ainsert_of_mem {α : Type} {l : List (Key × α)} {k : Key}
    (v : α) (hm : k ∈ akeys l) : akeys (ainsert l k v) = akeys l := by
  induction l with
  | nil => simp at hm
  | cons p rest ih =>
    obtain ⟨k', v'⟩ := p
    by_cases h : k' = k
    · subst h
      simp [ainsert]
    · rw [show ainsert ((k', v') :: rest) k v = (k', v') :: ainsert rest k v by
        simp [ainsert, h]]
      rw [akeys_cons, List.mem_cons] at hm
      rcases hm with hm | hm
      · exact absurd hm.symm h
      · rw [akeys_cons, akeys_cons, ih hm]

theorem akeys_ainsert_of_not_mem {α : Type} {l : List (Key × α)} {k : Key}
    (v : α) (hm : k ∉ akeys l) : akeys (ainsert l k v) = akeys l ++ [k] := by
  induction l with
  | nil => simp [ainsert]
  | cons p rest ih =>
    obtain ⟨k', v'⟩ := p
    rw [akeys_cons, List.mem_cons] at hm
    push_neg at hm
    rw [show ainsert ((k', v') :: rest) k v = (k', v') :: ainsert rest k v by
      simp [ainsert, Ne.symm hm.1]]
    rw [akeys_cons, akeys_cons, ih hm.2]
    rfl

theorem alookup_ainsert_self {α : Type} (l : List (Key × α)) (k : Key)
    (v : α) : alookup (ainsert l k v) k = some v := by
  induction l with
  | nil => simp [ainsert, alookup]
  | cons p rest ih =>
    obtain ⟨k', v'⟩ := p
    by_cases h : k' = k
    · subst h
      simp [ainsert, alookup]
    · rw [show ainsert ((k', v') :: rest) k v = (k', v') :: ainsert rest k v by
        simp [ainsert, h]]
      simp [alookup, h, ih]

theorem alookup_ainsert_of_ne {α : Type} (l : List (Key × α)) {k k' : Key}
    (v : α) (h : k ≠ k') : alookup (ainsert l k v) k' = alookup l k' := by
  induction l with
  | nil => simp [ainsert, alookup, h]
  | cons p rest ih =>
    obtain ⟨a, b⟩ := p
    by_cases ha : a = k
    · subst ha
      simp [ainsert, alookup, h]
    · rw [show ainsert ((a, b) :: rest) k v = (a, b) :: ainsert rest k v by
        simp [ainsert, ha]]
      by_cases hb : a = k'
      · simp [alookup, hb]
      · simp [alookup, hb, ih]

theorem nodup_akeys_ainsert {α : Type} {l : List (Key × α)} (k : Key)
    (v : α) (hnd : (akeys l).Nodup) : (akeys (ainsert l k v)).Nodup := by
  by_cases hm : k ∈ akeys l
  · rw [akeys_ainsert_of_mem v hm]
    exact hnd
  · rw [akeys_ainsert_of_not_mem v hm]
    simpa [List.nodup_append] using ⟨hnd, fun h => absurd h hm⟩

theorem mem_ainsert {α : Type} {l : List (Key × α)} {k : Key} {v : α}
    (hnd : (akeys l).Nodup) (p : Key × α) :
    p ∈ ainsert l k v ↔ p = (k, v) ∨ (p ∈ l ∧ p.1 ≠ k) := by
  induction l with
  | nil => simp [ainsert]
  | cons q rest ih =>
    obtain ⟨a, b⟩ := q
    rw [akeys_cons, List.nodup_cons] at hnd
    by_cases h : a = k
    · rw [show ainsert ((a, b) :: rest) k v = (k, v) :: rest by
        simp [ainsert, h]]
      rw [List.mem_cons, List.mem_cons]
      constructor
      · rintro (hp | hp)
        · exact Or.inl hp
        · refine Or.inr ⟨Or.inr hp, ?_⟩
          intro he
          apply hnd.1
          rw [h, ← he]
          exact mem_akeys_of_mem ((Prod.mk.eta (p := p)) ▸ hp)
      · rintro (hp | ⟨hp | hp, hne⟩)
        · exact Or.inl hp
        · exact absurd (h ▸ congrArg Prod.fst hp) (by simpa using hne)
        · exact Or.inr hp
    · rw [show ainsert ((a, b) :: rest) k v = (a, b) :: ainsert rest k v by
        simp [ainsert, h]]
      rw [List.mem_cons, ih hnd.2, List.mem_cons]
      constructor
      · rintro (hp | hp | ⟨hp, hne⟩)
        · subst hp
          exact Or.inr ⟨Or.inl rfl, by simpa using h⟩
        · exact Or.inl hp
        · exact Or.inr ⟨Or.inr hp, hne⟩
      · rintro (hp | ⟨hp | hp, hne⟩)
        · exact Or.inr (Or.inl hp)
        · exact Or.inl hp
        · exact Or.inr (Or.inr ⟨hp, hne⟩)

@[simp]
theorem sizeSum_nil : sizeSum [] = 0 := rfl

@[simp]
theorem sizeSum_cons (p : Key × Entry) (l : List (Key × Entry)) :
    sizeSum (p :: l) = p.2.size + sizeSum l := by
  simp [sizeSum]

@[simp]
theorem sizeSum_append (l₁ l₂ : List (Key × Entry)) :
    sizeSum (l₁ ++ l₂) = sizeSum l₁ + sizeSum l₂ := by
  simp [sizeSum]

theorem sizeSum_aerase {l : List (Key × Entry)} {k : Key} {e : Entry}
    (h : alookup l k = some e) :
    sizeSum l = sizeSum (aerase l k) + e.size := by
  induction l with
  | nil => simp [alookup] at h
  | cons p rest ih =>
    obtain ⟨k', v⟩ := p
    by_cases hk : k' = k
    · simp [alookup, hk] at h
      simp [aerase, hk, h]
      omega
    · simp [alookup, hk] at h
      simp [aerase, hk, ih h]
      omega

theorem Cache.removeKey_maxmem {E : Type} (c : Cache E) (k : Key) :
    (c.removeKey k).maxmem = c.maxmem := by
  unfold Cache.removeKey
  split <;> rfl

theorem Cache.removeKey_policy {E : Type} (c : Cache E) (k : Key) :
    (c.removeKey k).policy = c.policy := by
  unfold Cache.removeKey
  split <;> rfl

theorem Cache.removeKey_estate {E : Type} (c : Cache E) (k : Key) :
    (c.removeKey k).estate = c.estate := by
  unfold Cache.removeKey
  split <;> rfl

theorem Cache.touchPolicy_entries {E : Type} (c : Cache E) (k : Key) :
    (c.touchPolicy k).entries = c.entries := by
  unfold Cache.touchPolicy
  split <;> rfl

theorem Cache.touchPolicy_used {E : Type} (c : Cache E) (k : Key) :
    (c.touchPolicy k).used = c.used := by
  unfold Cache.touchPolicy
  split <;> rfl

theorem Cache.touchPolicy_maxmem {E : Type} (c : Cache E) (k : Key) :
    (c.touchPolicy k).maxmem = c.maxmem := by
  unfold Cache.touchPolicy
  split <;> rfl

theorem Cache.removeKey_inv {E : Type} {c : Cache E} (k : Key)
    (h : CacheInv c) : CacheInv (c.removeKey k) := by
  obtain ⟨hnd, hsum, hcap⟩ := h
  unfold Cache.removeKey
  split
  · exact ⟨hnd, hsum, hcap⟩
  · rename_i e he
    refine ⟨nodup_akeys_aerase k hnd, ?_, ?_⟩
    · have := sizeSum_aerase he
      simp only
      omega
    · simp only
      omega

theorem Cache.removeKey_not_mem {E : Type} {c : Cache E} {k' : Key}
    (k : Key) (h : k' ∉ akeys c.entries) :
    k' ∉ akeys (c.removeKey k).entries := by
  unfold Cache.removeKey
  split
  · exact h
  · intro hm
    exact h (((akeys_aerase_sublist c.entries k).subset) hm)

theorem Cache.removeKey_self_not_mem {E : Type} {c : Cache E} (k : Key)
    (hnd : (akeys c.entries).Nodup) :
    k ∉ akeys (c.removeKey k).entries := by
  unfold Cache.removeKey
  split
  · rename_i he
    exact (alookup_eq_none c.entries k).mp he
  · exact not_mem_akeys_aerase_self hnd

theorem Cache.evictLoop_maxmem {E : Type} (ev : Evictor E) (size : Nat)
    (fuel : Nat) (c : Cache E) :
    (Cache.evictLoop ev size fuel c).maxmem = c.maxmem := by
  induction fuel generalizing c with
  | zero => rfl
  | succ fuel ih =>
    unfold Cache.evictLoop
    split
    · rfl
    · split
      · split
        · rfl
        · rw [ih]
          rw [Cache.removeKey_maxmem]

theorem Cache.evictLoop_policy {E : Type} (ev : Evictor E) (size : Nat)
    (fuel : Nat) (c : Cache E) :
    (Cache.evictLoop ev size fuel c).policy = c.policy := by
  induction fuel generalizing c with
  | zero => rfl
  | succ fuel ih =>
    unfold Cache.evictLoop
    split
    · rfl
    · split
      · split
        · rfl
        · rw [ih]
          rw [Cache.removeKey_policy]

theorem Cache.evictLoop_inv {E : Type} {ev : Evictor E} {size : Nat}
    (fuel : Nat) {c : Cache E} (h : CacheInv c) :
    CacheInv (Cache.evictLoop ev size fuel c) := by
  induction fuel generalizing c with
  | zero => exact h
  | succ fuel ih =>
    unfold Cache.evictLoop
    split
    · exact h
    · split
      · split
        · exact h
        · exact ih (Cache.removeKey_inv _ h)

theorem Cache.evictLoop_not_mem {E : Type} {ev : Evictor E} {size : Nat}
    (fuel : Nat) {c : Cache E} {k' : Key} (h : k' ∉ akeys c.entries) :
    k' ∉ akeys (Cache.evictLoop ev size fuel c).entries := by
  induction fuel generalizing c with
  | zero => exact h
  | succ fuel ih =>
    unfold Cache.evictLoop
    split
    · exact h
    · split
      · split
        · exact h
        · exact ih (Cache.removeKey_not_mem _ h)

theorem Cache.insertNew_inv {E : Type} {c : Cache E} {k : Key}
    {data : List Char} {size : Nat} (hinv : CacheInv c)
    (hk : k ∉ akeys c.entries) (hfit : c.used + size ≤ c.maxmem) :
    CacheInv (c.insertNew k data size) := by
  obtain ⟨hnd, hsum, _⟩ := hinv
  refine ⟨?_, ?_, ?_⟩
  · simp only [Cache.insertNew, akeys_append, akeys_cons, akeys_nil]
    simpa [List.nodup_append] using ⟨hnd, fun hm => absurd hm hk⟩
  · simp [Cache.insertNew, hsum]
  · simpa [Cache.insertNew] using hfit

theorem Cache.touchPolicy_inv {E : Type} {c : Cache E} (k : Key)
    (h : CacheInv c) : CacheInv (c.touchPolicy k) := by
  obtain ⟨hnd, hsum, hcap⟩ := h
  unfold Cache.touchPolicy
  split
  · exact ⟨hnd, hsum, hcap⟩
  · exact ⟨hnd, hsum, hcap⟩

theorem Cache.set_inv {E : Type} {c : Cache E} (k : Key) (data : List Char)
    (size : Nat) (h : CacheInv c) : CacheInv (c.set k data size) := by
  simp only [Cache.set]
  have h₁ : CacheInv (c.removeKey k) := Cache.removeKey_inv k h
  have hk₁ : k ∉ akeys (c.removeKey k).entries :=
    Cache.removeKey_self_not_mem k h.1
  split
  · rename_i hfit
    exact Cache.touchPolicy_inv k (Cache.insertNew_inv h₁ hk₁ hfit)
  · split
    · exact h
    · rename_i ev _
      split
      · rename_i hfit
        refine Cache.touchPolicy_inv k (Cache.insertNew_inv ?_ ?_ hfit)
        · exact Cache.evictLoop_inv _ h₁
        · exact Cache.evictLoop_not_mem _ hk₁
      · exact Cache.evictLoop_inv _ h₁

theorem Cache.get_inv {E : Type} {c : Cache E} (k : Key) (h : CacheInv c) :
    CacheInv (c.get k).2 := by
  unfold Cache.get
  split
  · exact Cache.touchPolicy_inv k h
  · exact h

theorem Cache.del_inv {E : Type} {c : Cache E} (k : Key) (h : CacheInv c) :
    CacheInv (c.del k).2 := by
  have := Cache.removeKey_inv k h
  unfold Cache.del
  unfold Cache.removeKey at this
  split
  · rename_i e he
    rw [he] at this
    exact this
  · exact h

theorem Cache.reset_inv {E : Type} (c : Cache E) : CacheInv c.reset :=
  ⟨by simp [Cache.reset], by simp [Cache.reset], by simp [Cache.reset]⟩

theorem Cache.applyOp_inv {E : Type} {c : Cache E} (op : CacheOp)
    (h : CacheInv c) : CacheInv (c.applyOp op) := by
  cases op with
  | setOp k d s => exact Cache.set_inv k d s h
  | getOp k => exact Cache.get_inv k h
  | delOp k => exact Cache.del_inv k h
  | resetOp => exact Cache.reset_inv c

theorem Cache.execOps_inv {E : Type} {c : Cache E} (ops : List CacheOp)
    (h : CacheInv c) : CacheInv (c.execOps ops) := by
  induction ops generalizing c with
  | nil => exact h
  | cons op rest ih => exact ih (Cache.applyOp_inv op h)

theorem Cache.insertNew_maxmem {E : Type} (c : Cache E) (k : Key)
    (data : List Char) (size : Nat) :
    (c.insertNew k data size).maxmem = c.maxmem := rfl

theorem Cache.set_maxmem {E : Type} (c : Cache E) (k : Key)
    (data : List Char) (size : Nat) :
    (c.set k data size).maxmem = c.maxmem := by
  simp only [Cache.set]
  split
  · rw [Cache.touchPolicy_maxmem, Cache.insertNew_maxmem,
      Cache.removeKey_maxmem]
  · split
    · rfl
    · split
      · rw [Cache.touchPolicy_maxmem, Cache.insertNew_maxmem,
          Cache.evictLoop_maxmem, Cache.removeKey_maxmem]
      · rw [Cache.evictLoop_maxmem, Cache.removeKey_maxmem]

theorem Cache.get_maxmem {E : Type} (c : Cache E) (k : Key) :
    (c.get k).2.maxmem = c.maxmem := by
  unfold Cache.get
  split
  · rw [Cache.touchPolicy_maxmem]
  · rfl

theorem Cache.del_maxmem {E : Type} (c : Cache E) (k : Key) :
    (c.del k).2.maxmem = c.maxmem := by
  unfold Cache.del
  split <;> rfl

theorem Cache.applyOp_maxmem {E : Type} (c : Cache E) (op : CacheOp) :
    (c.applyOp op).maxmem = c.maxmem := by
  cases op with
  | setOp k d s => exact Cache.set_maxmem c k d s
  | getOp k => exact Cache.get_maxmem c k
  | delOp k => exact Cache.del_maxmem c k
  | resetOp => rfl

theorem Cache.execOps_maxmem {E : Type} (c : Cache E) (ops : List CacheOp) :
    (c.execOps ops).maxmem = c.maxmem := by
  induction ops generalizing c with
  | nil => rfl
  | cons op rest ih =>
    show (Cache.execOps (c.applyOp op) rest).maxmem = c.maxmem
    rw [ih, Cache.applyOp_maxmem]

theorem Cache.get_isSome_iff {E : Type} (c : Cache E) (k : Key) :
    ((c.get k).1).isSome ↔ k ∈ akeys c.entries := by
  unfold Cache.get
  constructor
  · intro h
    by_contra hm
    rw [← alookup_eq_none (α := Entry)] at hm
    rw [hm] at h
    simp at h
  · intro hm
    split
    · simp
    · rename_i he
      exact absurd ((alookup_eq_none c.entries k).mp he hm) (by simp)

theorem Cache.mk0_inv {E : Type} (maxmem : Nat)
    (policy : Option (Evictor E)) (e0 : E) :
    CacheInv (Cache.mk0 maxmem policy e0) := by
  refine ⟨?_, rfl, ?_⟩ <;> simp [Cache.mk0]

/-- Claim C1: over every sequence of completed operations (set, get, del,
reset) starting from a fresh store, `space_used()` equals the sum of the
sizes of the entries currently retrievable via `get` (the stored entries,
whose keys are pairwise distinct and exactly the keys `get` finds), and
`space_used() <= capacity` holds after every completed operation. -/
theorem claim_C1_space_used_invariant {E : Type} (maxmem : Nat)
    (policy : Option (Evictor E)) (e0 : E) (ops : List CacheOp) :
    let c := Cache.execOps (Cache.mk0 maxmem policy e0) ops
    c.space_used = sizeSum c.entries ∧
    (∀ k, ((c.get k).1).isSome ↔ k ∈ akeys c.entries) ∧
    (akeys c.entries).Nodup ∧
    c.space_used ≤ maxmem := by
  intro c
  have hinv : CacheInv c :=
    Cache.execOps_inv ops (Cache.mk0_inv maxmem policy e0)
  have hmax : c.maxmem = maxmem := by
    show (Cache.execOps _ ops).maxmem = maxmem
    rw [Cache.execOps_maxmem]
    rfl
  exact ⟨hinv.2.1, fun k => Cache.get_isSome_iff c k, hinv.1,
    hmax ▸ hinv.2.2⟩

@[simp]
theorem qkeys_nil : qkeys [] = [] := rfl

@[simp]
theorem qkeys_cons (n : Nat × Key) (q : List (Nat × Key)) :
    qkeys (n :: q) = n.2 :: qkeys q := rfl

@[simp]
theorem qkeys_append (q₁ q₂ : List (Nat × Key)) :
    qkeys (q₁ ++ q₂) = qkeys q₁ ++ qkeys q₂ := by
  simp [qkeys]

@[simp]
theorem qids_nil : qids [] = [] := rfl

@[simp]
theorem qids_cons (n : Nat × Key) (q : List (Nat × Key)) :
    qids (n :: q) = n.1 :: qids q := rfl

@[simp]
theorem qids_append (q₁ q₂ : List (Nat × Key)) :
    qids (q₁ ++ q₂) = qids q₁ ++ qids q₂ := by
  simp [qids]

theorem eraseNode_sublist (q : List (Nat × Key)) (i : Nat) :
    List.Sublist (eraseNode q i) q := by
  induction q with
  | nil => simp [eraseNode]
  | cons n rest ih =>
    by_cases h : n.1 = i
    · rw [show eraseNode (n :: rest) i = rest by simp [eraseNode, h]]
      exact List.sublist_cons_self n rest
    · rw [show eraseNode (n :: rest) i = n :: eraseNode rest i by
        simp [eraseNode, h]]
      exact List.Sublist.cons₂ n ih

theorem mem_eraseNode {q : List (Nat × Key)} {i : Nat}
    (hnd : (qids q).Nodup) (n : Nat × Key) :
    n ∈ eraseNode q i ↔ n ∈ q ∧ n.1 ≠ i := by
  induction q with
  | nil => simp [eraseNode]
  | cons m rest ih =>
    rw [qids_cons, List.nodup_cons] at hnd
    by_cases h : m.1 = i
    · rw [show eraseNode (m :: rest) i = rest by simp [eraseNode, h]]
      constructor
      · intro hm
        refine ⟨List.mem_cons_of_mem m hm, ?_⟩
        intro he
        apply hnd.1
        rw [h, ← he]
        exact List.mem_map_of_mem (·.1) hm
      · rintro ⟨hm, hne⟩
        rcases List.mem_cons.mp hm with hm | hm
        · exact absurd (hm ▸ h) hne
        · exact hm
    · rw [show eraseNode (m :: rest) i = m :: eraseNode rest i by
        simp [eraseNode, h]]
      rw [List.mem_cons, List.mem_cons, ih hnd.2]
      constructor
      · rintro (hm | ⟨hm, hne⟩)
        · exact ⟨Or.inl hm, hm ▸ h⟩
        · exact ⟨Or.inr hm, hne⟩
      · rintro ⟨hm | hm, hne⟩
        · exact Or.inl hm
        · exact Or.inr ⟨hm, hne⟩

theorem qkeys_eraseNode {q : List (Nat × Key)} {i : Nat} {k : Key}
    (hmem : (i, k) ∈ q) (hids : (qids q).Nodup)
    (hkeys : (qkeys q).Nodup) :
    qkeys (eraseNode q i) = (qkeys q).erase k := by
  induction q with
  | nil => simp at hmem
  | cons m rest ih =>
    rw [qids_cons, List.nodup_cons] at hids
    rw [qkeys_cons, List.nodup_cons] at hkeys
    rcases List.mem_cons.mp hmem with hm | hm
    · rw [show eraseNode (m :: rest) i = rest by simp [eraseNode, ← hm]]
      rw [qkeys_cons, ← hm]
      exact (List.erase_cons_head k (qkeys rest)).symm
    · have h : m.1 ≠ i := by
        intro he
        apply hids.1
        rw [he]
        exact List.mem_map_of_mem (·.1) hm
      have hk : m.2 ≠ k := by
        intro he
        apply hkeys.1
        rw [he]
        exact List.mem_map_of_mem (·.2) hm
      rw [show eraseNode (m :: rest) i = m :: eraseNode rest i by
        simp [eraseNode, h]]
      rw [qkeys_cons, qkeys_cons, List.erase_cons_tail (by simpa using hk),
        ih hm hids.2 hkeys.2]

theorem mem_qkeys {q : List (Nat × Key)} {k : Key} :
    k ∈ qkeys q ↔ ∃ i, (i, k) ∈ q := by
  constructor
  · intro h
    rcases List.mem_map.mp h with ⟨⟨i, k'⟩, hm, he⟩
    exact ⟨i, by simpa [← he] using hm⟩
  · rintro ⟨i, hm⟩
    exact List.mem_map_of_mem (·.2) hm

theorem key_eq_of_id {q : List (Nat × Key)} (hnd : (qids q).Nodup)
    {i : Nat} {k k' : Key} (h1 : (i, k) ∈ q) (h2 : (i, k') ∈ q) : k = k' := by
  induction q with
  | nil => simp at h1
  | cons m rest ih =>
    rw [qids_cons, List.nodup_cons] at hnd
    rcases List.mem_cons.mp h1 with e1 | m1
    · rcases List.mem_cons.mp h2 with e2 | m2
      · rw [← e1] at e2
        exact (congrArg Prod.snd e2.symm)
      · exact absurd (by rw [← e1]; exact List.mem_map_of_mem (·.1) m2)
          hnd.1
    · rcases List.mem_cons.mp h2 with e2 | m2
      · exact absurd (by rw [← e2]; exact List.mem_map_of_mem (·.1) m1)
          hnd.1
      · exact ih hnd.2 m1 m2

theorem eraseNode_length {q : List (Nat × Key)} {i : Nat}
    (h : i ∈ qids q) : (eraseNode q i).length + 1 = q.length := by
  induction q with
  | nil => simp at h
  | cons m rest ih =>
    by_cases hm : m.1 = i
    · rw [show eraseNode (m :: rest) i = rest by simp [eraseNode, hm]]
      rfl
    · rw [show eraseNode (m :: rest) i = m :: eraseNode rest i by
        simp [eraseNode, hm]]
      rw [qids_cons, List.mem_cons] at h
      rcases h with h | h
      · exact absurd h.symm hm
      · simp only [List.length_cons, ih h]

theorem LruInv.empty : LruInv LruEvictor.empty := by
  refine ⟨?_, ?_, ?_, ?_, ?_, ?_⟩ <;> simp [LruEvictor.empty]

theorem lru_touch_queue_none {s : LruEvictor} {k : Key}
    (hl : alookup s.map k = none) :
    (s.touch_key k).queue = s.queue ++ [(s.nextId, k)] := by
  unfold LruEvictor.touch_key
  rw [hl]

theorem lru_touch_queue_some {s : LruEvictor} {k : Key} {i : Nat}
    (hl : alookup s.map k = some i) :
    (s.touch_key k).queue = eraseNode s.queue i ++ [(s.nextId, k)] := by
  unfold LruEvictor.touch_key
  rw [hl]

theorem lru_touch_map (s : LruEvictor) (k : Key) :
    (s.touch_key k).map = ainsert s.map k s.nextId := rfl

theorem lru_touch_nextId (s : LruEvictor) (k : Key) :
    (s.touch_key k).nextId = s.nextId + 1 := rfl

theorem lru_not_mem_qkeys {s : LruEvictor} {k : Key} (h : LruInv s)
    (hl : alookup s.map k = none) : k ∉ qkeys s.queue := by
  intro hm
  rcases mem_qkeys.mp hm with ⟨i, hm⟩
  have := alookup_eq_some_of_mem h.2.2.1 (h.2.2.2.2.1 (i, k) hm)
  rw [hl] at this
  cases this

theorem qids_eraseNode_nodup {q : List (Nat × Key)} {i : Nat}
    (h : (qids q).Nodup) : (qids (eraseNode q i)).Nodup := by
  have hs : List.Sublist (List.map (·.1) (eraseNode q i))
      (List.map (·.1) q) := (eraseNode_sublist q i).map (·.1)
  exact @List.Sublist.nodup Nat (qids (eraseNode q i)) (qids q) hs h

theorem lru_evict_queue_nil {s : LruEvictor} (h : s.queue = []) :
    s.evict = ("", s) := by
  unfold LruEvictor.evict
  rw [h]

theorem lru_evict_queue_cons {s : LruEvictor} {i : Nat} {k : Key}
    {rest : List (Nat × Key)} (h : s.queue = (i, k) :: rest) :
    s.evict = (k, ⟨rest, aerase s.map k, s.nextId⟩) := by
  unfold LruEvictor.evict
  rw [h]

theorem lru_touch_inv {s : LruEvictor} (k : Key) (h : LruInv s) :
    LruInv (s.touch_key k) := by
  obtain ⟨hqk, hqi, hmk, hmq, hqm, hlt⟩ := h
  rcases hl : alookup s.map k with _ | i
  · have hknot : k ∉ qkeys s.queue :=
      lru_not_mem_qkeys ⟨hqk, hqi, hmk, hmq, hqm, hlt⟩ hl
    refine ⟨?_, ?_, ?_, ?_, ?_, ?_⟩
    · rw [lru_touch_queue_none hl, qkeys_append, qkeys_cons, qkeys_nil]
      simpa [List.nodup_append] using ⟨hqk, fun hm => absurd hm hknot⟩
    · rw [lru_touch_queue_none hl, qids_append, qids_cons, qids_nil]
      refine (List.nodup_append).mpr ⟨hqi, List.nodup_singleton _, ?_⟩
      intro a ha hb
      simp only [List.mem_singleton] at hb
      rcases List.mem_map.mp ha with ⟨n, hn, he⟩
      have := hlt n hn
      omega
    · rw [lru_touch_map]
      exact nodup_akeys_ainsert k s.nextId hmk
    · intro p hp
      rw [lru_touch_map] at hp
      rw [lru_touch_queue_none hl]
      rcases (mem_ainsert hmk p).mp hp with hp | ⟨hp, hne⟩
      · rw [hp]
        exact List.mem_append_right _ (by simp)
      · exact List.mem_append_left _ (hmq p hp)
    · intro n hn
      rw [lru_touch_queue_none hl] at hn
      rw [lru_touch_map]
      rcases List.mem_append.mp hn with hn | hn
      · refine (mem_ainsert hmk (n.2, n.1)).mpr (Or.inr ⟨hqm n hn, ?_⟩)
        intro he
        apply hknot
        rw [← he]
        exact List.mem_map_of_mem (·.2) hn
      · simp only [List.mem_singleton] at hn
        rw [hn]
        exact (mem_ainsert hmk (k, s.nextId)).mpr (Or.inl rfl)
    · intro n hn
      rw [lru_touch_queue_none hl] at hn
      rw [lru_touch_nextId]
      rcases List.mem_append.mp hn with hn | hn
      · have := hlt n hn
        omega
      · simp only [List.mem_singleton] at hn
        rw [hn]
        omega
  · have hmem : (k, i) ∈ s.map := mem_of_alookup_eq_some hl
    have hqmem : (i, k) ∈ s.queue := hmq (k, i) hmem
    refine ⟨?_, ?_, ?_, ?_, ?_, ?_⟩
    · rw [lru_touch_queue_some hl, qkeys_append, qkeys_cons, qkeys_nil]
      rw [qkeys_eraseNode hqmem hqi hqk]
      refine (List.nodup_append).mpr ⟨hqk.erase k, List.nodup_singleton _, ?_⟩
      intro a ha hb
      simp only [List.mem_singleton] at hb
      rw [hb] at ha
      exact hqk.not_mem_erase ha
    · rw [lru_touch_queue_some hl, qids_append, qids_cons, qids_nil]
      refine (List.nodup_append).mpr
        ⟨qids_eraseNode_nodup hqi, List.nodup_singleton _, ?_⟩
      intro a ha hb
      simp only [List.mem_singleton] at hb
      rcases List.mem_map.mp ha with ⟨n, hn, he⟩
      have := hlt n ((eraseNode_sublist s.queue i).subset hn)
      omega
    · rw [lru_touch_map]
      exact nodup_akeys_ainsert k s.nextId hmk
    · intro p hp
      rw [lru_touch_map] at hp
      rw [lru_touch_queue_some hl]
      rcases (mem_ainsert hmk p).mp hp with hp | ⟨hp, hne⟩
      · rw [hp]
        exact List.mem_append_right _ (by simp)
      · refine List.mem_append_left _ ?_
        refine (mem_eraseNode hqi (p.2, p.1)).mpr ⟨hmq p hp, ?_⟩
        intro he
        simp only at he
        apply hne
        exact key_eq_of_id hqi (he ▸ hmq p hp) hqmem
    · intro n hn
      rw [lru_touch_queue_some hl] at hn
      rw [lru_touch_map]
      rcases List.mem_append.mp hn with hn | hn
      · have hn' := (mem_eraseNode hqi n).mp hn
        refine (mem_ainsert hmk (n.2, n.1)).mpr (Or.inr ⟨hqm n hn'.1, ?_⟩)
        intro he
        simp only at he
        apply hn'.2
        have h2 : alookup s.map n.2 = some n.1 :=
          alookup_eq_some_of_mem hmk (hqm n hn'.1)
        rw [he, hl] at h2
        cases h2
        rfl
      · simp only [List.mem_singleton] at hn
        rw [hn]
        exact (mem_ainsert hmk (k, s.nextId)).mpr (Or.inl rfl)
    · intro n hn
      rw [lru_touch_queue_some hl] at hn
      rw [lru_touch_nextId]
      rcases List.mem_append.mp hn with hn | hn
      · have := hlt n ((eraseNode_sublist s.queue i).subset hn)
        omega
      · simp only [List.mem_singleton] at hn
        rw [hn]
        omega

theorem lru_evict_inv {s : LruEvictor} (h : LruInv s) :
    LruInv (s.evict).2 := by
  obtain ⟨hqk, hqi, hmk, hmq, hqm, hlt⟩ := h
  rcases hq : s.queue with _ | ⟨⟨i, k⟩, rest⟩
  · rw [lru_evict_queue_nil hq]
    exact ⟨hqk, hqi, hmk, hmq, hqm, hlt⟩
  · rw [lru_evict_queue_cons hq]
    rw [hq] at hqk hqi hmq hqm hlt
    rw [qkeys_cons, List.nodup_cons] at hqk
    rw [qids_cons, List.nodup_cons] at hqi
    refine ⟨hqk.2, hqi.2, nodup_akeys_aerase k hmk, ?_, ?_, ?_⟩
    · intro p hp
      rcases (mem_aerase hmk p).mp hp with ⟨hp, hne⟩
      rcases List.mem_cons.mp (hmq p hp) with he | hm
      · exact absurd (by simpa using congrArg Prod.snd he) hne
      · exact hm
    · intro n hn
      refine (mem_aerase hmk (n.2, n.1)).mpr
        ⟨hqm n (List.mem_cons_of_mem _ hn), ?_⟩
      intro he
      apply hqk.1
      simp only at he
      rw [← he]
      exact List.mem_map_of_mem (·.2) hn
    · intro n hn
      exact hlt n (List.mem_cons_of_mem _ hn)

theorem alookup_aerase_self {α : Type} {l : List (Key × α)} (k : Key)
    (hnd : (akeys l).Nodup) : alookup (aerase l k) k = none :=
  (alookup_eq_none _ k).mpr (not_mem_akeys_aerase_self hnd)

theorem lru_applyOp_inv {s : LruEvictor} (op : LruOp) (h : LruInv s) :
    LruInv (s.applyOp op) := by
  cases op with
  | touchOp k => exact lru_touch_inv k h
  | evictOp => exact lru_evict_inv h

theorem lru_execOps_inv {s : LruEvictor} (ops : List LruOp) (h : LruInv s) :
    LruInv (s.execOps ops) := by
  induction ops generalizing s with
  | nil => exact h
  | cons op rest ih => exact ih (lru_applyOp_inv op h)

theorem lru_akeys_iff_qkeys {s : LruEvictor} (h : LruInv s) (k : Key) :
    k ∈ akeys s.map ↔ k ∈ qkeys s.queue := by
  constructor
  · intro hm
    rcases mem_akeys.mp hm with ⟨i, hm⟩
    exact mem_qkeys.mpr ⟨i, h.2.2.2.1 (k, i) hm⟩
  · intro hm
    rcases mem_qkeys.mp hm with ⟨i, hm⟩
    exact mem_akeys.mpr ⟨i, h.2.2.2.2.1 (i, k) hm⟩

theorem lru_touch_tracked_length {s : LruEvictor} {k : Key} (h : LruInv s)
    (hk : k ∈ qkeys s.queue) :
    (s.touch_key k).queue.length = s.queue.length := by
  rcases mem_qkeys.mp hk with ⟨i, hm⟩
  have hmap : (k, i) ∈ s.map := h.2.2.2.2.1 (i, k) hm
  have hl : alookup s.map k = some i := alookup_eq_some_of_mem h.2.2.1 hmap
  rw [lru_touch_queue_some hl, List.length_append, List.length_singleton,
    eraseNode_length (List.mem_map_of_mem (·.1) hm)]

theorem lru_evict_untracks {s : LruEvictor} {i : Nat} {k : Key}
    {rest : List (Nat × Key)} (h : LruInv s) (hq : s.queue = (i, k) :: rest) :
    (s.evict).1 = k ∧ k ∉ qkeys (s.evict).2.queue ∧
      alookup (s.evict).2.map k = none := by
  have hqk := h.1
  rw [hq, qkeys_cons, List.nodup_cons] at hqk
  rw [lru_evict_queue_cons hq]
  exact ⟨rfl, hqk.1, alookup_aerase_self k h.2.2.1⟩

/-- Claim C10: starting from the empty LRU evictor, every sequence of
`touch_key`/`evict` calls keeps the index map and the queue consistent —
queue keys are pairwise distinct, the map's keys are exactly the queue's
keys, and every map entry points at that key's queue node (and vice
versa); consequently touching an already-tracked key leaves the number of
tracked keys unchanged, and a key returned by `evict` is no longer
tracked afterwards. -/
theorem claim_C10_lru_consistency :
    (∀ ops : List LruOp, LruInv (LruEvictor.execOps LruEvictor.empty ops)) ∧
    (∀ s : LruEvictor, LruInv s →
      ∀ k, k ∈ akeys s.map ↔ k ∈ qkeys s.queue) ∧
    (∀ s : LruEvictor, ∀ k : Key, LruInv s → k ∈ qkeys s.queue →
      (s.touch_key k).queue.length = s.queue.length) ∧
    (∀ (s : LruEvictor) (i : Nat) (k : Key) (rest : List (Nat × Key)),
      LruInv s → s.queue = (i, k) :: rest →
      k ∉ qkeys (s.evict).2.queue ∧ alookup (s.evict).2.map k = none) := by
  refine ⟨?_, ?_, ?_, ?_⟩
  · intro ops
    exact lru_execOps_inv ops LruInv.empty
  · intro s h k
    exact lru_akeys_iff_qkeys h k
  · intro s k h hk
    exact lru_touch_tracked_length h hk
  · intro s i k rest h hq
    exact ⟨(lru_evict_untracks h hq).2.1, (lru_evict_untracks h hq).2.2⟩

/-- Witness for C10 at a concrete state: after touching `foo` then `bar`,
the state satisfies the consistency invariant, `foo` is tracked, and
re-touching `foo` keeps the tracked count at 2. -/
theorem claim_C10_lru_consistency_witness :
    LruInv (LruEvictor.execOps LruEvictor.empty
      [LruOp.touchOp "foo", LruOp.touchOp "bar"]) ∧
    ((LruEvictor.execOps LruEvictor.empty
      [LruOp.touchOp "foo", LruOp.touchOp "bar"]).touch_key
        "foo").queue.length =
      (LruEvictor.execOps LruEvictor.empty
        [LruOp.touchOp "foo", LruOp.touchOp "bar"]).queue.length :=
  ⟨by decide,
    claim_C10_lru_consistency.2.2.1
      (LruEvictor.execOps LruEvictor.empty
        [LruOp.touchOp "foo", LruOp.touchOp "bar"]) "foo"
      (by decide) (by decide)⟩

/-- Claim C6: LRU `touch_key` always moves the touched key to the
most-recently-used end (removing any prior position first), `evict`
removes and returns the key at the least-recently-used end, and after
touching `foo, bar, baz, quux, quuz, xyzzy` in that order and then again
in reverse order, successive `evict()` calls return
`xyzzy, quuz, quux, baz, bar, foo`. -/
theorem claim_C6_lru_eviction_order :
    (∀ s : LruEvictor, ∀ k : Key, LruInv s →
      qkeys (s.touch_key k).queue = (qkeys s.queue).erase k ++ [k]) ∧
    (∀ (s : LruEvictor) (i : Nat) (k : Key) (rest : List (Nat × Key)),
      s.queue = (i, k) :: rest →
      (s.evict).1 = k ∧ (s.evict).2.queue = rest) ∧
    (LruEvictor.drain
      (touchAll lruPolicy LruEvictor.empty (claimKeys ++ claimKeys.reverse))
      6 = ["xyzzy", "quuz", "quux", "baz", "bar", "foo"]) := by
  refine ⟨?_, ?_, by decide⟩
  · intro s k h
    rcases hl : alookup s.map k with _ | i
    · rw [lru_touch_queue_none hl, qkeys_append, qkeys_cons, qkeys_nil,
        List.erase_of_not_mem (lru_not_mem_qkeys h hl)]
    · have hmem : (k, i) ∈ s.map := mem_of_alookup_eq_some hl
      have hqmem : (i, k) ∈ s.queue := h.2.2.2.1 (k, i) hmem
      rw [lru_touch_queue_some hl, qkeys_append, qkeys_cons, qkeys_nil,
        qkeys_eraseNode hqmem h.2.1 h.1]
  · intro s i k rest hq
    rw [lru_evict_queue_cons hq]
    exact ⟨rfl, rfl⟩

/-- Witness for C6 at a concrete state: touching `foo` in the
two-element state `[bar, foo]` moves it to the MRU end. -/
theorem claim_C6_lru_eviction_order_witness :
    qkeys ((touchAll lruPolicy LruEvictor.empty ["foo", "bar"]).touch_key
        "foo").queue =
      List.erase
        (qkeys (touchAll lruPolicy LruEvictor.empty ["foo", "bar"]).queue)
        "foo" ++ ["foo"] :=
  claim_C6_lru_eviction_order.1
    (touchAll lruPolicy LruEvictor.empty ["foo", "bar"]) "foo"
    (by decide)

theorem fifo_evict_queue_cons {s : FifoEvictor} {k : Key}
    {rest : List Key} (h : s.queue = k :: rest) :
    s.evict = (k, ⟨rest, s.keys.erase k⟩) := by
  unfold FifoEvictor.evict
  rw [h]

/-- Claim C7: FIFO `touch_key` of an already-tracked key is a no-op and
otherwise appends the key to the back; `evict` removes and returns the
front key; after touching `foo, bar, baz, quux, quuz, xyzzy` in that
order and re-touching them in reverse order, successive `evict()` calls
return `foo, bar, baz, quux, quuz, xyzzy`. -/
theorem claim_C7_fifo_eviction_order :
    (∀ (s : FifoEvictor) (k : Key), k ∈ s.keys → s.touch_key k = s) ∧
    (∀ (s : FifoEvictor) (k : Key), k ∉ s.keys →
      s.touch_key k = ⟨s.queue ++ [k], k :: s.keys⟩) ∧
    (∀ (s : FifoEvictor) (k : Key) (rest : List Key), s.queue = k :: rest →
      (s.evict).1 = k ∧ (s.evict).2.queue = rest) ∧
    (FifoEvictor.drain
      (touchAll fifoPolicy FifoEvictor.empty (claimKeys ++ claimKeys.reverse))
      6 = ["foo", "bar", "baz", "quux", "quuz", "xyzzy"]) := by
  refine ⟨?_, ?_, ?_, by decide⟩
  · intro s k h
    simp [FifoEvictor.touch_key, h]
  · intro s k h
    simp [FifoEvictor.touch_key, h]
  · intro s k rest hq
    rw [fifo_evict_queue_cons hq]
    exact ⟨rfl, rfl⟩

/-- Witness for C7 at a concrete state: re-touching `foo` after touching
`foo` then `bar` is a no-op. -/
theorem claim_C7_fifo_eviction_order_witness :
    (touchAll fifoPolicy FifoEvictor.empty ["foo", "bar"]).touch_key
        "foo" =
      touchAll fifoPolicy FifoEvictor.empty ["foo", "bar"] :=
  claim_C7_fifo_eviction_order.1
    (touchAll fifoPolicy FifoEvictor.empty ["foo", "bar"]) "foo" (by decide)

/-- Claim C9: `POST /reset` clears the cache and yields 200 with an empty
body; any other POST target yields 404; any unhandled method yields 400;
none of these mutates the cache except `POST /reset`. -/
theorem claim_C9_response_statuses {E : Type} (c : Cache E)
    (target : String) :
    (handle_request Method.post "/reset" c =
      (⟨200, "", none⟩, SharedCache.reset c)) ∧
    (target ≠ "/reset" →
      handle_request Method.post target c = (⟨404, "", none⟩, c)) ∧
    (handle_request Method.other target c = (⟨400, "", none⟩, c)) := by
  refine ⟨rfl, ?_, rfl⟩
  intro h
  simp [handle_request, h]

/-- Witness for C9: `POST /foo` on a fresh capacity-10 cache yields 404
and leaves the cache untouched. -/
theorem claim_C9_response_statuses_witness :
    handle_request Method.post "/foo"
        (Cache.mk0 10 (none : Option (Evictor Unit)) ()) =
      (⟨404, "", none⟩, Cache.mk0 10 (none : Option (Evictor Unit)) ()) :=
  (claim_C9_response_statuses
    (Cache.mk0 10 (none : Option (Evictor Unit)) ()) "/foo").2.1 (by decide)

/-- Claim C2 fails on the code: storing the two-byte value `up` through
the server charges three bytes (`val.size() + 1`, the NUL terminator
included), so the size charged and reported is not the byte length of the
value. -/
theorem claim_C2_counterexample :
    SharedCache.space_used
        (SharedCache.set (Cache.mk0 100 (none : Option (Evictor Unit)) ())
          "foo" "up") = 3 ∧
      String.length "up" = 2 ∧
      SharedCache.space_used
          (SharedCache.set (Cache.mk0 100 (none : Option (Evictor Unit)) ())
            "foo" "up") ≠
        String.length "up" := by
  refine ⟨rfl, rfl, ?_⟩
  intro h
  rw [show SharedCache.space_used
      (SharedCache.set (Cache.mk0 100 (none : Option (Evictor Unit)) ())
        "foo" "up") = 3 from rfl] at h
  rw [show String.length "up" = 2 from rfl] at h
  cases h

/-! ### Behaviour of `Cache::set` on its success and failure paths -/

theorem Cache.removeKey_of_none {E : Type} {c : Cache E} {k : Key}
    (h : alookup c.entries k = none) : c.removeKey k = c := by
  unfold Cache.removeKey
  rw [h]

theorem Cache.removeKey_of_some {E : Type} {c : Cache E} {k : Key}
    {e : Entry} (h : alookup c.entries k = some e) :
    c.removeKey k =
      { c with entries := aerase c.entries k, used := c.used - e.size } := by
  unfold Cache.removeKey
  rw [h]

theorem alookup_append_right {α : Type} {l : List (Key × α)} {k : Key}
    (v : α) (h : k ∉ akeys l) : alookup (l ++ [(k, v)]) k = some v := by
  induction l with
  | nil => simp [alookup]
  | cons p rest ih =>
    obtain ⟨k', v'⟩ := p
    rw [akeys_cons, List.mem_cons] at h
    push_neg at h
    rw [List.cons_append,
      show alookup ((k', v') :: (rest ++ [(k, v)])) k =
        alookup (rest ++ [(k, v)]) k by simp [alookup, Ne.symm h.1]]
    exact ih h.2

/-- On the fitting path, `set` appends the new entry after erasing any old
binding and the policy is touched. -/
theorem Cache.set_of_fits {E : Type} {c : Cache E} {k : Key}
    {data : List Char} {size : Nat}
    (h : (c.removeKey k).used + size ≤ c.maxmem) :
    c.set k data size =
      ((c.removeKey k).insertNew k data size).touchPolicy k := by
  have hc : (c.removeKey k).used + size ≤ (c.removeKey k).maxmem := by
    rw [Cache.removeKey_maxmem]
    exact h
  simp only [Cache.set]
  rw [if_pos hc]

theorem Cache.set_fresh {E : Type} {c : Cache E} {k : Key}
    {data : List Char} {size : Nat} (hl : alookup c.entries k = none)
    (hfit : c.used + size ≤ c.maxmem) :
    (c.set k data size).entries = c.entries ++ [(k, ⟨data, size⟩)] ∧
    (c.set k data size).used = c.used + size := by
  have hrk := Cache.removeKey_of_none hl
  have hfit' : (c.removeKey k).used + size ≤ c.maxmem := by
    rw [hrk]
    exact hfit
  rw [Cache.set_of_fits hfit', Cache.touchPolicy_entries,
    Cache.touchPolicy_used, hrk]
  exact ⟨rfl, rfl⟩

theorem Cache.set_replace {E : Type} {c : Cache E} {k : Key} {e : Entry}
    {data : List Char} {size : Nat} (hl : alookup c.entries k = some e)
    (hfit : (c.used - e.size) + size ≤ c.maxmem) :
    (c.set k data size).entries =
      aerase c.entries k ++ [(k, ⟨data, size⟩)] ∧
    (c.set k data size).used = (c.used - e.size) + size := by
  have hrk := Cache.removeKey_of_some hl
  have hfit' : (c.removeKey k).used + size ≤ c.maxmem := by
    rw [hrk]
    exact hfit
  rw [Cache.set_of_fits hfit', Cache.touchPolicy_entries,
    Cache.touchPolicy_used, hrk]
  exact ⟨rfl, rfl⟩

/-- Claim C5: `set(k, v1)` then `set(k, v2)` on a fresh store (either
value fitting on its own) leaves exactly one entry for `k`, carrying
`v2`'s data and size, and `space_used()` is exactly `v2`'s size. -/
theorem claim_C5_set_replaces {E : Type} (maxmem : Nat)
    (policy : Option (Evictor E)) (e0 : E) (k : Key) (d1 d2 : List Char)
    (s1 s2 : Nat) (h1 : s1 ≤ maxmem) (h2 : s2 ≤ maxmem) :
    (((Cache.mk0 maxmem policy e0).set k d1 s1).set k d2 s2).entries =
      [(k, ⟨d2, s2⟩)] ∧
    (((Cache.mk0 maxmem policy e0).set k d1 s1).set k d2 s2).space_used =
      s2 := by
  have hstep1 := @Cache.set_fresh E (Cache.mk0 maxmem policy e0) k d1 s1
    rfl (by simpa [Cache.mk0] using h1)
  rw [show (Cache.mk0 maxmem policy e0 : Cache E).entries = [] from rfl,
    List.nil_append] at hstep1
  rw [show (Cache.mk0 maxmem policy e0 : Cache E).used = 0 from rfl,
    Nat.zero_add] at hstep1
  have hl2 : alookup ((Cache.mk0 maxmem policy e0).set k d1 s1).entries k =
      some ⟨d1, s1⟩ := by
    rw [hstep1.1]
    simp [alookup]
  have hmax1 : ((Cache.mk0 maxmem policy e0).set k d1 s1).maxmem = maxmem :=
    Cache.set_maxmem _ k d1 s1
  have hstep2 := @Cache.set_replace E
    ((Cache.mk0 maxmem policy e0).set k d1 s1) k ⟨d1, s1⟩ d2 s2 hl2
    (by rw [hstep1.2, hmax1]; simpa using h2)
  rw [hstep1.1] at hstep2
  rw [show aerase [(k, (⟨d1, s1⟩ : Entry))] k = [] by
    simp [aerase]] at hstep2
  rw [hstep1.2] at hstep2
  refine ⟨by rw [hstep2.1]; rfl, ?_⟩
  show (((Cache.mk0 maxmem policy e0).set k d1 s1).set k d2 s2).used = s2
  rw [hstep2.2]
  simp

/-- Witness for C5: on a fresh capacity-10 store, `set k "aaa"` then
`set k "bbbb"` leaves one entry of size 4 and `space_used() = 4`. -/
theorem claim_C5_set_replaces_witness :
    (((Cache.mk0 10 (none : Option (Evictor Unit)) ()).set "k"
        ['a', 'a', 'a'] 3).set "k" ['b', 'b', 'b', 'b'] 4).entries =
      [("k", ⟨['b', 'b', 'b', 'b'], 4⟩)] ∧
    (((Cache.mk0 10 (none : Option (Evictor Unit)) ()).set "k"
        ['a', 'a', 'a'] 3).set "k" ['b', 'b', 'b', 'b'] 4).space_used =
      4 :=
  claim_C5_set_replaces 10 none () "k" ['a', 'a', 'a']
    ['b', 'b', 'b', 'b'] 3 4 (by decide) (by decide)

theorem Cache.set_no_fit_no_evictor {E : Type} {c : Cache E} {k : Key}
    {data : List Char} {size : Nat} (hpol : c.policy = none)
    (hno : ¬((c.removeKey k).used + size ≤ c.maxmem)) :
    c.set k data size = c := by
  have hno' : ¬((c.removeKey k).used + size ≤ (c.removeKey k).maxmem) := by
    rw [Cache.removeKey_maxmem]
    exact hno
  simp only [Cache.set]
  rw [if_neg hno', Cache.removeKey_policy, hpol]

theorem Cache.set_no_fit_evictor {E : Type} {c : Cache E} {ev : Evictor E}
    {k : Key} {data : List Char} {size : Nat} (hpol : c.policy = some ev)
    (hno : ¬((c.removeKey k).used + size ≤ c.maxmem)) :
    c.set k data size =
      if (c.afterEvict ev k size).used + size ≤
          (c.afterEvict ev k size).maxmem then
        ((c.afterEvict ev k size).insertNew k data size).touchPolicy k
      else c.afterEvict ev k size := by
  have hno' : ¬((c.removeKey k).used + size ≤ (c.removeKey k).maxmem) := by
    rw [Cache.removeKey_maxmem]
    exact hno
  simp only [Cache.set]
  rw [if_neg hno', Cache.removeKey_policy, hpol]
  rfl

theorem Cache.afterEvict_maxmem {E : Type} (c : Cache E) (ev : Evictor E)
    (k : Key) (size : Nat) : (c.afterEvict ev k size).maxmem = c.maxmem := by
  unfold Cache.afterEvict
  rw [Cache.evictLoop_maxmem, Cache.removeKey_maxmem]

theorem Cache.afterEvict_inv {E : Type} {c : Cache E} (ev : Evictor E)
    (k : Key) (size : Nat) (h : CacheInv c) :
    CacheInv (c.afterEvict ev k size) :=
  Cache.evictLoop_inv _ (Cache.removeKey_inv k h)

theorem Cache.afterEvict_not_mem {E : Type} {c : Cache E} (ev : Evictor E)
    (k : Key) (size : Nat) (h : (akeys c.entries).Nodup) :
    k ∉ akeys (c.afterEvict ev k size).entries :=
  Cache.evictLoop_not_mem _ (Cache.removeKey_self_not_mem k h)

/-- Claim C4, amended: a `set` that cannot make room is rejected with no
error and the oversized entry is never inserted; with no evictor (and the
free space after dropping the key's old binding still insufficient) the
store is left entirely unchanged, while with an evictor a value whose
size alone exceeds the capacity is not inserted — though entries evicted
by the failed attempt stay evicted — and `used` stays within capacity. -/
theorem claim_C4_amended_rejection {E : Type} (c : Cache E) (k : Key)
    (data : List Char) (size : Nat) :
    (c.policy = none → c.maxmem < (c.removeKey k).used + size →
      c.set k data size = c) ∧
    (∀ ev : Evictor E, c.policy = some ev → c.maxmem < size → CacheInv c →
      alookup (c.set k data size).entries k = none ∧
      (c.set k data size).used ≤ c.maxmem) := by
  constructor
  · intro hpol hpress
    exact Cache.set_no_fit_no_evictor hpol (by omega)
  · intro ev hpol hsize hinv
    have hno : ¬((c.removeKey k).used + size ≤ c.maxmem) := by omega
    have hnofit2 : ¬((c.afterEvict ev k size).used + size ≤
        (c.afterEvict ev k size).maxmem) := by
      rw [Cache.afterEvict_maxmem]
      omega
    rw [Cache.set_no_fit_evictor hpol hno, if_neg hnofit2]
    refine ⟨(alookup_eq_none _ k).mpr
      (Cache.afterEvict_not_mem ev k size hinv.1), ?_⟩
    have h2 := (Cache.afterEvict_inv ev k size hinv).2.2
    rw [Cache.afterEvict_maxmem] at h2
    exact h2

/-- Witness for C4 (amended): a fresh evictor-less capacity-5 store
rejects a size-9 write unchanged, and `c4ex` (capacity 5, FIFO evictor,
one 3-byte entry) rejects a size-10 write without inserting it and with
`used` within capacity. -/
theorem claim_C4_amended_rejection_witness :
    ((Cache.mk0 5 (none : Option (Evictor Unit)) ()).set "a"
        (List.replicate 9 'a') 9 = Cache.mk0 5 none ()) ∧
    (alookup (c4ex.set "b" (List.replicate 10 'b') 10).entries "b" = none ∧
      (c4ex.set "b" (List.replicate 10 'b') 10).used ≤ c4ex.maxmem) :=
  ⟨(claim_C4_amended_rejection (Cache.mk0 5 none ()) "a"
      (List.replicate 9 'a') 9).1 rfl (by decide),
    (claim_C4_amended_rejection c4ex "b" (List.replicate 10 'b') 10).2
      fifoPolicy rfl (by decide) (by decide)⟩

/-- Claim C4 as frozen is false on the (spec-modelled) code: in `c4ex` —
capacity 5, FIFO evictor, one 3-byte entry under `a` — a `set` of a
10-byte value (whose size alone exceeds the capacity, so the write is
rejected) drains the pre-existing entry: the map and `used` are not left
unchanged. -/
theorem claim_C4_counterexample :
    c4ex.maxmem = 5 ∧
    c4ex.entries = [("a", ⟨['x', 'y', 'z'], 3⟩)] ∧
    c4ex.used = 3 ∧
    alookup (c4ex.set "b" (List.replicate 10 'b') 10).entries "b" = none ∧
    (c4ex.set "b" (List.replicate 10 'b') 10).entries = [] ∧
    (c4ex.set "b" (List.replicate 10 'b') 10).used = 0 := by
  refine ⟨rfl, rfl, rfl, rfl, rfl, rfl⟩

/-- Claim C3: on a store with an evictor, when the value does not fit up
front but does fit after the eviction loop (old binding removed, then
evicted keys dropped one at a time, decrementing `used`), `set` inserts
the new entry, adds its size to `used`, touches the policy with the key,
and the key is retrievable via `get` with the stored bytes. -/
theorem claim_C3_set_with_evictor {E : Type} (c : Cache E)
    (ev : Evictor E) (k : Key) (data : List Char) (size : Nat)
    (hpol : c.policy = some ev) (hinv : CacheInv c)
    (hpress : c.maxmem < (c.removeKey k).used + size)
    (hfit : (c.afterEvict ev k size).used + size ≤ c.maxmem) :
    alookup (c.set k data size).entries k = some ⟨data, size⟩ ∧
    (c.set k data size).used = (c.afterEvict ev k size).used + size ∧
    (c.set k data size).estate =
      ev.touch_key (c.afterEvict ev k size).estate k ∧
    ((c.set k data size).get k).1 = some (data, size) ∧
    (c.set k data size).used ≤ c.maxmem := by
  have hfit2 : (c.afterEvict ev k size).used + size ≤
      (c.afterEvict ev k size).maxmem := by
    rw [Cache.afterEvict_maxmem]
    exact hfit
  rw [Cache.set_no_fit_evictor hpol (by omega), if_pos hfit2]
  have hkn : k ∉ akeys (c.afterEvict ev k size).entries :=
    Cache.afterEvict_not_mem ev k size hinv.1
  have hent : (((c.afterEvict ev k size).insertNew k data
      size).touchPolicy k).entries =
      (c.afterEvict ev k size).entries ++ [(k, ⟨data, size⟩)] := by
    rw [Cache.touchPolicy_entries]
    rfl
  have hlook : alookup ((((c.afterEvict ev k size).insertNew k data
      size).touchPolicy k).entries) k = some ⟨data, size⟩ := by
    rw [hent]
    exact alookup_append_right _ hkn
  refine ⟨hlook, ?_, ?_, ?_, ?_⟩
  · rw [Cache.touchPolicy_used]
    rfl
  · have hpol2 : ((c.afterEvict ev k size).insertNew k data size).policy =
        some ev := by
      rw [show ((c.afterEvict ev k size).insertNew k data size).policy =
          (c.afterEvict ev k size).policy from rfl]
      unfold Cache.afterEvict
      rw [Cache.evictLoop_policy, Cache.removeKey_policy, hpol]
    unfold Cache.touchPolicy
    rw [hpol2]
    rfl
  · unfold Cache.get
    rw [hlook]
  · rw [Cache.touchPolicy_used]
    show (c.afterEvict ev k size).used + size ≤ c.maxmem
    exact hfit

/-- Witness for C3: storing a 3-byte value into the full `c3ex` evicts
the old entry and the new key is retrievable. -/
theorem claim_C3_set_with_evictor_witness :
    alookup (c3ex.set "b" ['u', 'v', 'w'] 3).entries "b" =
      some ⟨['u', 'v', 'w'], 3⟩ ∧
    ((c3ex.set "b" ['u', 'v', 'w'] 3).get "b").1 =
      some (['u', 'v', 'w'], 3) ∧
    (c3ex.set "b" ['u', 'v', 'w'] 3).used ≤ c3ex.maxmem :=
  ⟨(claim_C3_set_with_evictor c3ex fifoPolicy "b" ['u', 'v', 'w'] 3 rfl
      (by decide) (by decide) (by decide)).1,
    (claim_C3_set_with_evictor c3ex fifoPolicy "b" ['u', 'v', 'w'] 3 rfl
      (by decide) (by decide) (by decide)).2.2.2.1,
    (claim_C3_set_with_evictor c3ex fifoPolicy "b" ['u', 'v', 'w'] 3 rfl
      (by decide) (by decide) (by decide)).2.2.2.2⟩

/-- Claim C2, amended: the size charged for a value stored through the
server is `val.size() + 1` — the value's bytes plus the NUL terminator —
reported identically by `space_used()` and the `Space-Used` header, and
independent of the key (keys are never charged). -/
theorem claim_C2_amended_charged_size {E : Type} (maxmem : Nat)
    (policy : Option (Evictor E)) (e0 : E) (key : String) (val : String)
    (hfit : val.length + 1 ≤ maxmem) :
    SharedCache.space_used
        (SharedCache.set (Cache.mk0 maxmem policy e0) key val) =
      val.length + 1 ∧
    (handle_request Method.head "/"
        (SharedCache.set (Cache.mk0 maxmem policy e0) key
          val)).1.spaceUsed =
      some (val.length + 1) := by
  have h := @Cache.set_fresh E (Cache.mk0 maxmem policy e0) key
    (val.data ++ [nulChar]) (val.length + 1) rfl
    (by simpa [Cache.mk0] using hfit)
  have hu : SharedCache.space_used
      (SharedCache.set (Cache.mk0 maxmem policy e0) key val) =
      val.length + 1 := by
    show (Cache.set (Cache.mk0 maxmem policy e0) key
      (val.data ++ [nulChar]) (val.length + 1)).used = val.length + 1
    rw [h.2]
    simp [Cache.mk0]
  refine ⟨hu, ?_⟩
  show some (SharedCache.space_used
    (SharedCache.set (Cache.mk0 maxmem policy e0) key val)) =
    some (val.length + 1)
  rw [hu]

/-- Witness for C2 (amended): storing `up` under `foo` in a fresh
capacity-100 server cache charges 3 bytes, reported by the header. -/
theorem claim_C2_amended_charged_size_witness :
    SharedCache.space_used
        (SharedCache.set (Cache.mk0 100 (none : Option (Evictor Unit)) ())
          "foo" "up") = 3 ∧
    (handle_request Method.head "/"
        (SharedCache.set (Cache.mk0 100 (none : Option (Evictor Unit)) ())
          "foo" "up")).1.spaceUsed = some 3 :=
  claim_C2_amended_charged_size 100 none () "foo" "up" (by decide)

/-- Claim C8 fails on the code: the value handed back by the client's
`get` is a pointer into the shared `last_value` buffer; after a
subsequent `get` of `bar`, reading through the `foo` pointer yields
`down`, no longer equal to the stored value `up` (still in the cache). -/
theorem claim_C8_counterexample :
    derefPtr (clientGet ⟨""⟩ c8srv "foo").2.1 = "up" ∧
    derefPtr (clientGet (clientGet ⟨""⟩ c8srv "foo").2.1
        (clientGet ⟨""⟩ c8srv "foo").2.2 "bar").2.1 = "down" ∧
    (SharedCache.get (clientGet (clientGet ⟨""⟩ c8srv "foo").2.1
        (clientGet ⟨""⟩ c8srv "foo").2.2 "bar").2.2 "foo").1 = "up" ∧
    ("down" : String) ≠ "up" := by
  refine ⟨by decide, by decide, by decide, by decide⟩

/-- Claim C8, amended: the server-side wrapper copies the stored bytes
into a fresh string per response, but the client library's `get` returns
a pointer into its single reused buffer: immediately after the call the
pointer reads the fetched value, and after the next successful `get` it
reads that next value instead — the caller must copy it first. -/
theorem claim_C8_amended_reused_buffer {E : Type} (impl : ClientImpl)
    (srv : Cache E) (k1 k2 : String) (v1 v2 : String)
    (h1 : (SharedCache.get srv k1).1 = v1) (hne1 : v1 ≠ "")
    (h2 : (SharedCache.get (clientGet impl srv k1).2.2 k2).1 = v2)
    (hne2 : v2 ≠ "") :
    derefPtr (clientGet impl srv k1).2.1 = v1 ∧
    derefPtr (clientGet (clientGet impl srv k1).2.1
        (clientGet impl srv k1).2.2 k2).2.1 = v2 := by
  rcases hs1 : SharedCache.get srv k1 with ⟨val1, srv1⟩
  have hv1 : val1 = v1 := by
    rw [← h1, hs1]
  subst hv1
  have hg1 : clientGet impl srv k1 =
      (some (val1.length + 1), ⟨val1⟩, srv1) := by
    unfold clientGet
    rw [hs1]
    show (if val1 ≠ "" then (some (val1.length + 1),
      (⟨val1⟩ : ClientImpl), srv1) else (none, impl, srv1)) =
      (some (val1.length + 1), (⟨val1⟩ : ClientImpl), srv1)
    rw [if_pos hne1]
  rw [hg1] at h2
  rcases hs2 : SharedCache.get srv1 k2 with ⟨val2, srv2⟩
  have hv2 : val2 = v2 := by
    rw [← h2]
    show val2 = (SharedCache.get srv1 k2).1
    rw [hs2]
  subst hv2
  have hg2 : clientGet (⟨val1⟩ : ClientImpl) srv1 k2 =
      (some (val2.length + 1), ⟨val2⟩, srv2) := by
    unfold clientGet
    rw [hs2]
    show (if val2 ≠ "" then (some (val2.length + 1),
      (⟨val2⟩ : ClientImpl), srv2)
      else (none, (⟨val1⟩ : ClientImpl), srv2)) =
      (some (val2.length + 1), (⟨val2⟩ : ClientImpl), srv2)
    rw [if_pos hne2]
  rw [hg1, hg2]
  exact ⟨rfl, rfl⟩

/-- Witness for C8 (amended) on `c8srv`: fetching `foo` then `bar`
leaves the shared buffer holding `down`. -/
theorem claim_C8_amended_reused_buffer_witness :
    derefPtr (clientGet ⟨""⟩ c8srv "foo").2.1 = "up" ∧
    derefPtr (clientGet (clientGet ⟨""⟩ c8srv "foo").2.1
        (clientGet ⟨""⟩ c8srv "foo").2.2 "bar").2.1 = "down" :=
  claim_C8_amended_reused_buffer ⟨""⟩ c8srv "foo" "bar" "up" "down"
    (by decide) (by decide) (by decide) (by decide)

end CacheSpec

